import Mathlib

/-!
# Verification of the badminton trajectory data pipeline (`dataset.py`)

Shallow embedding of the windowing / resampling / normalization pipeline of
`dataset.py`.  Machine floats are modelled as rationals; the floating-point
square root used by `numpy.std` is modelled as an arbitrary function
`sqrtF : ℚ → ℚ` passed to the constructor (the statements that depend on it
only use that it is nonnegative on nonnegative inputs).  The process-wide
RNG (`np.random.randint`, `random.shuffle`) is modelled by explicit oracle
parameters: integer draws with range hypotheses mirroring `randint`'s
contract, and a `shuffle` function with a permutation hypothesis.
Fallible Python code (assertions, `IndexError`, `TypeError` on `None`
statistics) is modelled with `Option`.
-/

namespace Badminton

/-- A parsed raw sample, as produced by `parse_sample_file`:
full frame matrix, frame ids, landing frame and landing coordinates. -/
structure Sample where
  frames : List (List ℚ)
  frame_ids : List ℤ
  drop_frame : ℤ
  label_xyz : List ℚ
  deriving DecidableEq, Repr

/-- Resolve one bound of a Python slice `xs[a:b]` for a list of length `n`:
negative indices count from the end (clamped below at `0`), nonnegative
indices are clamped above at `n`. -/
def pyBound (n : ℕ) (i : ℤ) : ℕ :=
  if i < 0 then ((n : ℤ) + i).toNat else min i.toNat n

/-- Python slice `xs[a:b]` (step 1), with Python's negative-index and
clamping semantics. -/
def pySlice (xs : List α) (a b : ℤ) : List α :=
  (xs.take (pyBound xs.length b)).drop (pyBound xs.length a)

/-- Mean of a list of rationals (`numpy mean`; `0` on the empty list,
matching the `0/0 = 0` convention of `ℚ`). -/
def qmean (xs : List ℚ) : ℚ := xs.sum / (xs.length : ℚ)

/-- Population variance (`numpy std` squared, `ddof = 0`). -/
def qvar (xs : List ℚ) : ℚ :=
  ((xs.map (fun x => (x - qmean xs) ^ 2)).sum) / (xs.length : ℚ)

/-- Column `j` of a row-major matrix (rows are assumed rectangular at the
call sites; missing entries default to `0`, which faithfully models
`numpy` only on rectangular data). -/
def column (rows : List (List ℚ)) (j : ℕ) : List ℚ :=
  rows.map (fun r => r.getD j 0)

/-- Per-column means of a matrix, for columns `0 ≤ j < w`
(`mean(axis=0)`). -/
def colMeans (w : ℕ) (rows : List (List ℚ)) : List ℚ :=
  (List.range w).map (fun j => qmean (column rows j))

/-- Per-column population variances of a matrix (`std(axis=0)` squared). -/
def colVars (w : ℕ) (rows : List (List ℚ)) : List ℚ :=
  (List.range w).map (fun j => qvar (column rows j))

/-- The `1e-6` floor added to every standard deviation. -/
def eps : ℚ := 1 / 1000000

/-- Embedding of `np.concatenate([s["frames"] for s in samples], axis=0)`. -/
def allFrames (samples : List Sample) : List (List ℚ) :=
  samples.flatMap (·.frames)

/-- The 4-label vector of one sample:
`[label_xyz, drop_frame - frame_ids[-1]]` (the time label uses the last
frame id of the *full* trajectory; `frame_ids[-1]` on an empty id list is
modelled by the default `0`, unreachable for well-formed samples). -/
def labelVec (s : Sample) : List ℚ :=
  s.label_xyz ++ [((s.drop_frame - s.frame_ids.getLast?.getD 0 : ℤ) : ℚ)]

/-- Embedding of `np.stack([...labels...], axis=0)`. -/
def allLabels (samples : List Sample) : List (List ℚ) :=
  samples.map labelVec

/-- Feature width inferred from the data (63 in practice). -/
def featWidth (samples : List Sample) : ℕ :=
  ((allFrames samples).headD []).length

/-- Label width inferred from the data (4 in practice). -/
def labWidth (samples : List Sample) : ℕ :=
  ((allLabels samples).headD []).length

/-- Elementwise normalization `(v - m) / s` of a vector against mean `m`
and standard deviation `s` (broadcasting over rectangular data). -/
def normVec (m s v : List ℚ) : List ℚ :=
  List.zipWith (fun x ms => (x - ms.1) / ms.2) v (m.zip s)

/-- The element-level replication core of `resampling_v2`: each sample is
appended `num_subsamples` times, in input order. -/
def expandCore (samples : List Sample) (num_subsamples : ℕ) : List Sample :=
  samples.flatMap (fun s => List.replicate num_subsamples s)

/-- Source `resampling_v2`: replicate every sample `num_subsamples` times, then
`random.shuffle` (modelled by the explicit `shuffle` argument). -/
def resampling_v2 (shuffle : List Sample → List Sample)
    (samples : List Sample) (num_subsamples : ℕ) : List Sample :=
  shuffle (expandCore samples num_subsamples)

/-- One inner-loop iteration of `resampling` (interior sampling): given the
drawn `seq_len` and `end_idx`, either skip (`seq_len > total_len`) or emit
the slice `frames[end_idx - seq_len + 1 : end_idx + 1]` with metadata
copied unchanged. -/
def resamplingStep (s : Sample) (seq_len end_idx : ℕ) : Option Sample :=
  if seq_len > s.frames.length then none
  else
    let start_idx : ℤ := (end_idx : ℤ) - seq_len + 1
    some { frames := pySlice s.frames start_idx ((end_idx : ℤ) + 1)
           frame_ids := pySlice s.frame_ids start_idx ((end_idx : ℤ) + 1)
           drop_frame := s.drop_frame
           label_xyz := s.label_xyz }

/-- Source `resampling`: the interior-sampling expander.  `draws i k` models the
two `np.random.randint` calls of replica `k` of sample `i` (the drawn
`seq_len` and `end_idx`); replicas whose `seq_len` exceeds the trajectory
length are skipped (`continue`), and the result is shuffled. -/
def resampling (shuffle : List Sample → List Sample)
    (draws : ℕ → ℕ → ℕ × ℕ) (samples : List Sample)
    (num_subsamples : ℕ) : List Sample :=
  shuffle <|
    (samples.enum).flatMap (fun si =>
      (List.range num_subsamples).filterMap (fun k =>
        resamplingStep si.2 (draws si.1 k).1 (draws si.1 k).2))

/-- The dataset object.  The four statistics fields are `Option`s because
evaluation-mode construction stores whatever was passed, including the
Python default `None`. -/
structure BadmintonDataset where
  samples : List Sample
  min_len : ℕ
  max_len : ℕ
  mode : String
  feature_mean : Option (List ℚ)
  feature_std : Option (List ℚ)
  label_mean : Option (List ℚ)
  label_std : Option (List ℚ)

/-- Source `BadmintonDataset.__init__`.  `sqrtF` models the floating square root
inside `numpy.std`; `shuffle` models `random.shuffle` inside
`resampling_v2`.  The failing `assert len(samples) > 0` is `none`.
In training mode the statistics are computed from the *pre-expansion*
`samples` (source lines 223-231) and the sample pool is then expanded by
`resampling_v2` (line 236); in any other mode the four statistics
arguments are stored unchanged. -/
def badmintonInit (sqrtF : ℚ → ℚ) (shuffle : List Sample → List Sample)
    (samples : List Sample) (min_len max_len : ℕ) (mode : String)
    (num_subsamples : ℕ)
    (feature_mean feature_std label_mean label_std : Option (List ℚ)) :
    Option BadmintonDataset :=
  if samples.length = 0 then none
  else if mode = "train" then
    some { samples := resampling_v2 shuffle samples num_subsamples
           min_len, max_len, mode
           feature_mean := some (colMeans (featWidth samples) (allFrames samples))
           feature_std := some ((colVars (featWidth samples) (allFrames samples)).map
                                  (fun v => sqrtF v + eps))
           label_mean := some (colMeans (labWidth samples) (allLabels samples))
           label_std := some ((colVars (labWidth samples) (allLabels samples)).map
                                  (fun v => sqrtF v + eps)) }
  else
    some { samples, min_len, max_len, mode,
           feature_mean, feature_std, label_mean, label_std }

/-- Source `BadmintonDataset.get_norm_stats`. -/
def get_norm_stats (ds : BadmintonDataset) :
    Option (List ℚ) × Option (List ℚ) × Option (List ℚ) × Option (List ℚ) :=
  (ds.feature_mean, ds.feature_std, ds.label_mean, ds.label_std)

/-- The per-example tuple returned by `__getitem__`:
`(seq, length, label_xyz_norm, label_time_norm)`. -/
structure Item where
  seq : List (List ℚ)
  length : ℕ
  label_xyz_norm : List ℚ
  label_time_norm : ℚ
  deriving DecidableEq, Repr

/-- Source `BadmintonDataset.__getitem__`.  `draw` models the
`np.random.randint(min_len, max_len + 1)` call (used only in training
mode).  `none` models the Python exceptions: `IndexError` on a bad `idx`
or on `frame_ids[-1]` / `label_all[3]` of a too-short vector, and
`TypeError` when a statistics field is the default `None`. -/
def getitem (ds : BadmintonDataset) (idx : ℕ) (draw : ℕ) : Option Item :=
  match ds.samples[idx]? with
  | none => none
  | some s =>
    let total_len := s.frames.length
    let se : ℤ × ℤ :=
      if ds.mode = "train" then
        let seq_len := if draw > total_len then total_len else draw
        ((total_len : ℤ) - seq_len, (total_len : ℤ) - 1)
      else
        ((total_len : ℤ) - ds.max_len, (total_len : ℤ) - 1)
    let seq := pySlice s.frames se.1 (se.2 + 1)
    let frame_ids := pySlice s.frame_ids se.1 (se.2 + 1)
    match frame_ids.getLast? with
    | none => none
    | some lastId =>
      match ds.feature_mean, ds.feature_std, ds.label_mean, ds.label_std with
      | some fm, some fs, some lm, some ls =>
        let label_time_raw : ℚ := ((s.drop_frame - lastId : ℤ) : ℚ)
        let label_all := normVec lm ls (s.label_xyz ++ [label_time_raw])
        match label_all[3]? with
        | none => none
        | some t =>
          some { seq := seq.map (fun row => normVec fm fs row)
                 length := seq.length
                 label_xyz_norm := label_all.take 3
                 label_time_norm := t }
      | _, _, _, _ => none

/-- The `R`-fold blockwise replication of a list of blocks, flattened: the shape
of the frame pool produced by `resampling_v2` (proof device for the
replication-invariance of the statistics). -/
def blockRep (R : ℕ) (xss : List (List ℚ)) : List ℚ :=
  xss.flatMap (fun xs => (List.replicate R xs).flatten)

/-- The batch tuple returned by `collate_fn_dynamic`:
`(seqs_padded, lengths, masks, xyzs, times)`. -/
structure CollateOut where
  seqs : List (List (List ℚ))
  lengths : List ℕ
  masks : List (List Bool)
  xyzs : List (List ℚ)
  times : List ℚ
  deriving DecidableEq, Repr

/-- Source `collate_fn_dynamic`.  The empty batch is `none` (`zip(*batch)`
unpacking fails); the trailing rectangularity check models the shape check
of `torch.stack` (it fails when a passed `length` disagrees with the
actual sequence length or the feature widths differ). -/
def collate_fn_dynamic (batch : List Item) : Option CollateOut :=
  match batch with
  | [] => none
  | b0 :: _ =>
    let lengths := batch.map (·.length)
    let F := (b0.seq.headD []).length
    let maxL := lengths.foldl Nat.max 0
    let padded := batch.map (fun it =>
        List.replicate (maxL - it.length) (List.replicate F (0 : ℚ)) ++ it.seq)
    let masks := batch.map (fun it =>
        List.replicate (maxL - it.length) false ++
        List.replicate (maxL - (maxL - it.length)) true)
    if padded.all (fun sq => sq.length == maxL && sq.all (fun r => r.length == F)) then
      some { seqs := padded, lengths, masks
             xyzs := batch.map (·.label_xyz_norm)
             times := batch.map (·.label_time_norm) }
    else none

/-! ## Slice arithmetic -/

theorem pyBound_coe (n k : ℕ) (h : k ≤ n) : pyBound n (k : ℤ) = k := by
  simp only [pyBound]
  rw [if_neg (by omega)]
  simp [Int.toNat_natCast]
  omega

theorem pyBound_self (n : ℕ) : pyBound n (n : ℤ) = n :=
  pyBound_coe n n le_rfl

theorem pyBound_sub_of_le (n k : ℕ) (h : k ≤ n) :
    pyBound n ((n : ℤ) - k) = n - k := by
  have : ((n : ℤ) - k) = ((n - k : ℕ) : ℤ) := by omega
  rw [this, pyBound_coe] ; omega

theorem pyBound_sub_of_lt (n k : ℕ) (h : n < k) :
    pyBound n ((n : ℤ) - k) = 2 * n - k := by
  simp only [pyBound]
  rw [if_pos (by omega)]
  omega

theorem pySlice_coe (xs : List α) (a b : ℕ) (ha : a ≤ xs.length)
    (hb : b ≤ xs.length) : pySlice xs (a : ℤ) (b : ℤ) = (xs.take b).drop a := by
  simp only [pySlice, pyBound_coe _ _ ha, pyBound_coe _ _ hb]

theorem pySlice_to_drop (xs : List α) (a : ℤ) :
    pySlice xs a (xs.length : ℤ) = xs.drop (pyBound xs.length a) := by
  simp only [pySlice, pyBound_self, List.take_length]

theorem getLast?_drop (xs : List α) (j : ℕ) (h : j < xs.length) :
    (xs.drop j).getLast? = xs.getLast? := by
  conv_rhs => rw [← List.take_append_drop j xs]
  rw [List.getLast?_append_of_ne_nil]
  intro hnil
  have := congrArg List.length hnil
  simp at this
  omega

/-! ## Statistics: nonnegativity, permutation invariance, replication invariance -/

theorem qvar_nonneg (xs : List ℚ) : 0 ≤ qvar xs := by
  apply div_nonneg
  · apply List.sum_nonneg
    intro x hx
    rcases List.mem_map.mp hx with ⟨y, _, rfl⟩
    positivity
  · positivity

theorem qmean_perm {xs ys : List ℚ} (h : xs.Perm ys) : qmean xs = qmean ys := by
  simp only [qmean, h.sum_eq, h.length_eq]

theorem qvar_perm {xs ys : List ℚ} (h : xs.Perm ys) : qvar xs = qvar ys := by
  simp only [qvar, qmean_perm h, h.length_eq, (h.map _).sum_eq]

theorem blockRep_sum (R : ℕ) (xss : List (List ℚ)) :
    (blockRep R xss).sum = R * xss.flatten.sum := by
  induction xss with
  | nil => simp [blockRep]
  | cons x t ih =>
    simp only [blockRep, List.flatMap_cons, List.sum_append, List.flatten_cons] at *
    rw [ih]
    simp [List.sum_flatten, List.map_replicate, List.sum_replicate, nsmul_eq_mul]
    ring

theorem blockRep_length (R : ℕ) (xss : List (List ℚ)) :
    (blockRep R xss).length = R * xss.flatten.length := by
  induction xss with
  | nil => simp [blockRep]
  | cons x t ih =>
    simp only [blockRep, List.flatMap_cons, List.length_append, List.flatten_cons] at *
    rw [ih]
    simp [List.length_flatten, List.map_replicate, List.sum_replicate, smul_eq_mul]
    ring

theorem blockRep_map (R : ℕ) (g : ℚ → ℚ) (xss : List (List ℚ)) :
    (blockRep R xss).map g = blockRep R (xss.map (List.map g)) := by
  simp only [blockRep, List.map_flatMap, List.map_flatten, List.map_replicate,
    List.flatMap_map]

theorem qmean_blockRep (R : ℕ) (hR : 0 < R) (xss : List (List ℚ)) :
    qmean (blockRep R xss) = qmean xss.flatten := by
  rcases Nat.eq_zero_or_pos xss.flatten.length with h0 | hpos
  · have hnil : xss.flatten = [] := List.length_eq_zero.mp h0
    have : blockRep R xss = [] := by
      have := blockRep_length R xss
      rw [h0, Nat.mul_zero] at this
      exact List.length_eq_zero.mp this
    rw [this, hnil]
  · simp only [qmean, blockRep_sum, blockRep_length]
    push_cast
    rw [mul_div_mul_left]
    exact_mod_cast hR.ne.symm

theorem qvar_blockRep (R : ℕ) (hR : 0 < R) (xss : List (List ℚ)) :
    qvar (blockRep R xss) = qvar xss.flatten := by
  rcases Nat.eq_zero_or_pos xss.flatten.length with h0 | hpos
  · have hnil : xss.flatten = [] := List.length_eq_zero.mp h0
    have : blockRep R xss = [] := by
      have := blockRep_length R xss
      rw [h0, Nat.mul_zero] at this
      exact List.length_eq_zero.mp this
    rw [this, hnil]
  · have hm := qmean_blockRep R hR xss
    simp only [qvar, hm, blockRep_length]
    rw [blockRep_map, blockRep_sum, ← List.map_flatten]
    push_cast
    rw [mul_div_mul_left]
    exact_mod_cast hR.ne.symm

theorem column_allFrames (samples : List Sample) (j : ℕ) :
    column (allFrames samples) j =
      (samples.map (fun s => column s.frames j)).flatten := by
  simp only [column, allFrames, List.map_flatMap, List.flatMap_def,
    List.map_flatten, List.map_map]
  rfl

theorem column_allFrames_expand (R : ℕ) (samples : List Sample) (j : ℕ) :
    column (allFrames (expandCore samples R)) j =
      blockRep R (samples.map (fun s => column s.frames j)) := by
  simp only [column, allFrames, expandCore, blockRep, List.flatMap_assoc,
    List.map_flatMap, List.flatMap_replicate, List.map_flatten,
    List.map_replicate, List.flatMap_map]

theorem flatten_replicate_singleton (R : ℕ) (x : α) :
    (List.replicate R ([x] : List α)).flatten = List.replicate R x := by
  induction R with
  | zero => simp
  | succ n ih => simp [List.replicate_succ, ih]

theorem column_allLabels (samples : List Sample) (j : ℕ) :
    column (allLabels samples) j =
      (samples.map (fun s => [(labelVec s).getD j 0])).flatten := by
  induction samples with
  | nil => simp [column, allLabels]
  | cons s t ih => simp_all [column, allLabels]

theorem column_allLabels_expand (R : ℕ) (samples : List Sample) (j : ℕ) :
    column (allLabels (expandCore samples R)) j =
      blockRep R (samples.map (fun s => [(labelVec s).getD j 0])) := by
  simp only [column, allLabels, expandCore, blockRep, List.map_flatMap,
    List.map_map, List.map_replicate, List.flatMap_map,
    flatten_replicate_singleton]

/-- Master invariance lemma: per-column means and variances of the frame
pool and of the label pool are unchanged by `R`-fold replication followed
by any permutation (shuffling). -/
theorem stats_expand_perm (R : ℕ) (hR : 0 < R) (samples pool : List Sample)
    (hp : pool.Perm (expandCore samples R)) (w : ℕ) :
    colMeans w (allFrames pool) = colMeans w (allFrames samples) ∧
    colVars w (allFrames pool) = colVars w (allFrames samples) ∧
    colMeans w (allLabels pool) = colMeans w (allLabels samples) ∧
    colVars w (allLabels pool) = colVars w (allLabels samples) := by
  have hF : ∀ j, (column (allFrames pool) j).Perm
      (blockRep R (samples.map (fun s => column s.frames j))) := by
    intro j
    rw [← column_allFrames_expand]
    exact (hp.flatMap_right _).map _
  have hL : ∀ j, (column (allLabels pool) j).Perm
      (blockRep R (samples.map (fun s => [(labelVec s).getD j 0]))) := by
    intro j
    rw [← column_allLabels_expand]
    exact (hp.map _).map _
  refine ⟨?_, ?_, ?_, ?_⟩ <;>
    refine List.map_congr_left (fun j _ => ?_)
  · rw [qmean_perm (hF j), qmean_blockRep R hR, ← column_allFrames]
  · rw [qvar_perm (hF j), qvar_blockRep R hR, ← column_allFrames]
  · rw [qmean_perm (hL j), qmean_blockRep R hR, ← column_allLabels]
  · rw [qvar_perm (hL j), qvar_blockRep R hR, ← column_allLabels]

/-! ## Expansion pool combinatorics -/

theorem length_expandCore (samples : List Sample) (R : ℕ) :
    (expandCore samples R).length = R * samples.length := by
  induction samples with
  | nil => simp [expandCore]
  | cons s t ih =>
    simp only [expandCore, List.flatMap_cons, List.length_append,
      List.length_replicate] at *
    rw [ih, List.length_cons]
    ring

theorem count_expandCore (samples : List Sample) (R : ℕ) (s : Sample) :
    (expandCore samples R).count s = R * samples.count s := by
  induction samples with
  | nil => simp [expandCore]
  | cons a t ih =>
    simp only [expandCore, List.flatMap_cons, List.count_append,
      List.count_replicate, List.count_cons] at *
    rw [ih]
    by_cases h : a = s
    · simp [h] ; ring
    · simp [h]

theorem mem_expandCore_of_mem (samples : List Sample) (R : ℕ) (hR : 0 < R)
    (s : Sample) (hs : s ∈ samples) : s ∈ expandCore samples R :=
  List.mem_flatMap.mpr ⟨s, hs, List.mem_replicate.mpr ⟨hR.ne.symm, rfl⟩⟩

theorem mem_of_mem_expandCore (samples : List Sample) (R : ℕ) (e : Sample)
    (he : e ∈ expandCore samples R) : e ∈ samples := by
  rcases List.mem_flatMap.mp he with ⟨s, hs, hrep⟩
  rwa [(List.mem_replicate.mp hrep).2]

/-! ## `foldl max` bounds (batch max length) -/

theorem foldl_max_init_le (l : List ℕ) (b : ℕ) : b ≤ l.foldl Nat.max b := by
  induction l generalizing b with
  | nil => exact le_rfl
  | cons a t ih => exact le_trans (Nat.le_max_left b a) (ih (Nat.max b a))

theorem le_foldl_max (l : List ℕ) (b : ℕ) (x : ℕ) (hx : x ∈ l) :
    x ≤ l.foldl Nat.max b := by
  induction l generalizing b with
  | nil => cases hx
  | cons a t ih =>
    rcases List.mem_cons.mp hx with rfl | hx
    · exact le_trans (Nat.le_max_right b x) (foldl_max_init_le t _)
    · exact ih (Nat.max b a) hx

/-! ## `__getitem__` reduction lemmas -/

/-- Evaluation-mode `__getitem__`, fully reduced: the window is
`frames[total_len - max_len : total_len]` under Python slice semantics
(`pyBound` resolves the possibly negative start index), features are
normalized elementwise, and the raw time label is
`drop_frame - frame_ids[-1]` of the window (= of the full trajectory,
since the window is end-anchored). -/
theorem getitem_eval_master
    (samples : List Sample) (mn mx : ℕ) (mode : String)
    (fm fs : List ℚ) (m0 m1 m2 m3 s0 s1 s2 s3 : ℚ)
    (idx draw : ℕ) (rows : List (List ℚ)) (ids : List ℤ) (d li : ℤ)
    (a b c : ℚ)
    (hmode : mode ≠ "train")
    (hidx : samples[idx]? = some ⟨rows, ids, d, [a, b, c]⟩)
    (hlen : ids.length = rows.length)
    (hpos : 0 < rows.length) (hmx : 0 < mx)
    (hlast : ids.getLast? = some li) :
    getitem ⟨samples, mn, mx, mode, some fm, some fs,
        some [m0, m1, m2, m3], some [s0, s1, s2, s3]⟩ idx draw =
      some ⟨(rows.drop (pyBound rows.length ((rows.length : ℤ) - mx))).map
              (fun row => normVec fm fs row),
            rows.length - pyBound rows.length ((rows.length : ℤ) - mx),
            [(a - m0) / s0, (b - m1) / s1, (c - m2) / s2],
            (((d - li : ℤ) : ℚ) - m3) / s3⟩ := by
  have hj : pyBound rows.length ((rows.length : ℤ) - mx) < rows.length := by
    rcases le_or_lt mx rows.length with h | h
    · rw [pyBound_sub_of_le _ _ h] ; omega
    · rw [pyBound_sub_of_lt _ _ h] ; omega
  have he : ((rows.length : ℤ) - 1) + 1 = (rows.length : ℤ) := by ring
  have h1 : pySlice rows ((rows.length : ℤ) - mx) (rows.length : ℤ) =
      rows.drop (pyBound rows.length ((rows.length : ℤ) - mx)) :=
    pySlice_to_drop rows _
  have h2 : pySlice ids ((rows.length : ℤ) - mx) (rows.length : ℤ) =
      ids.drop (pyBound rows.length ((rows.length : ℤ) - mx)) := by
    rw [← hlen]
    exact pySlice_to_drop ids _
  have h3 : (ids.drop (pyBound rows.length ((rows.length : ℤ) - mx))).getLast? =
      some li := by
    rw [getLast?_drop ids _ (by omega), hlast]
  simp only [getitem, hidx]
  rw [if_neg hmode]
  simp only [he, h1, h2, h3]
  simp [normVec, List.length_drop]

/-- Training-mode `__getitem__`, fully reduced: the drawn `seq_len` is
clamped to `total_len`, the window is end-anchored
(`start = total_len - seq_len`, `end = total_len - 1`), and the labels are
normalized as in evaluation mode. -/
theorem getitem_train_master
    (samples : List Sample) (mn mx : ℕ)
    (fm fs : List ℚ) (m0 m1 m2 m3 s0 s1 s2 s3 : ℚ)
    (idx draw : ℕ) (rows : List (List ℚ)) (ids : List ℤ) (d li : ℤ)
    (a b c : ℚ)
    (hidx : samples[idx]? = some ⟨rows, ids, d, [a, b, c]⟩)
    (hlen : ids.length = rows.length)
    (hpos : 0 < rows.length) (hdraw : 0 < draw)
    (hlast : ids.getLast? = some li) :
    getitem ⟨samples, mn, mx, "train", some fm, some fs,
        some [m0, m1, m2, m3], some [s0, s1, s2, s3]⟩ idx draw =
      some ⟨(rows.drop (rows.length - min draw rows.length)).map
              (fun row => normVec fm fs row),
            min draw rows.length,
            [(a - m0) / s0, (b - m1) / s1, (c - m2) / s2],
            (((d - li : ℤ) : ℚ) - m3) / s3⟩ := by
  have hsl : (if draw > rows.length then rows.length else draw) =
      min draw rows.length := by
    rcases le_or_lt draw rows.length with h | h
    · rw [if_neg (by omega), Nat.min_eq_left h]
    · rw [if_pos h, Nat.min_eq_right (by omega)]
  have hslle : min draw rows.length ≤ rows.length := Nat.min_le_right _ _
  have hslpos : 0 < min draw rows.length := by
    rw [Nat.lt_min] ; exact ⟨hdraw, hpos⟩
  have hj : rows.length - min draw rows.length < rows.length := by omega
  have he : ((rows.length : ℤ) - 1) + 1 = (rows.length : ℤ) := by ring
  have h1 : pySlice rows ((rows.length : ℤ) - (min draw rows.length : ℕ))
        (rows.length : ℤ) =
      rows.drop (rows.length - min draw rows.length) := by
    rw [pySlice_to_drop rows _, pyBound_sub_of_le _ _ hslle]
  have h2 : pySlice ids ((rows.length : ℤ) - (min draw rows.length : ℕ))
        (rows.length : ℤ) =
      ids.drop (rows.length - min draw rows.length) := by
    rw [← hlen, pySlice_to_drop ids _, hlen, pyBound_sub_of_le _ _ hslle]
  have h3 : (ids.drop (rows.length - min draw rows.length)).getLast? =
      some li := by
    rw [getLast?_drop ids _ (by omega), hlast]
  simp only [getitem, hidx]
  simp only [if_true, reduceIte, hsl, he, h1, h2, h3]
  simp [normVec, List.length_drop]
  omega

theorem length_flatMap_le {α β : Type _} (l : List α) (g : α → List β)
    (R : ℕ) (h : ∀ a ∈ l, (g a).length ≤ R) :
    (l.flatMap g).length ≤ l.length * R := by
  induction l with
  | nil => simp
  | cons a t ih =>
    simp only [List.flatMap_cons, List.length_append, List.length_cons]
    have h1 := h a (List.mem_cons_self _ _)
    have h2 := ih (fun x hx => h x (List.mem_cons_of_mem _ hx))
    rw [Nat.succ_mul]
    omega

/-- Every `__getitem__` access fails when any of the four statistics
fields is the Python default `None` (`torch.from_numpy(None)` raises). -/
theorem getitem_none_of_missing (ev : List Sample) (mn mx : ℕ) (mode : String)
    (fm fs lm ls : Option (List ℚ)) (i d : ℕ)
    (hmode : mode ≠ "train")
    (hnone : fm = none ∨ fs = none ∨ lm = none ∨ ls = none) :
    getitem ⟨ev, mn, mx, mode, fm, fs, lm, ls⟩ i d = none := by
  simp only [getitem]
  cases hsi : ev[i]? with
  | none => rfl
  | some s =>
    simp only [if_neg hmode]
    cases hgl : (pySlice s.frame_ids ((s.frames.length : ℤ) - mx)
        (((s.frames.length : ℤ) - 1) + 1)).getLast? with
    | none => rfl
    | some li =>
      rcases hnone with h | h | h | h
      · subst h ; rfl
      · subst h ; cases fm <;> rfl
      · subst h ; cases fm <;> cases fs <;> rfl
      · subst h ; cases fm <;> cases fs <;> cases lm <;> rfl

/-! ## Claims -/

/-- C2: for every sample with `total_len ≥ max_len`, evaluation-mode
`__getitem__` returns the window `frames[total_len - max_len : total_len]`
of length `max_len` (end-anchored), raw time label
`drop_frame - frame_ids[end]`, features normalized elementwise as
`(x - feature_mean) / feature_std` and labels normalized elementwise as
`(label - label_mean) / label_std`. -/
theorem c2_eval_window
    (samples : List Sample) (mn mx : ℕ) (mode : String)
    (fm fs : List ℚ) (m0 m1 m2 m3 s0 s1 s2 s3 : ℚ)
    (idx draw : ℕ) (rows : List (List ℚ)) (ids : List ℤ) (d li : ℤ)
    (a b c : ℚ)
    (hmode : mode ≠ "train")
    (hidx : samples[idx]? = some ⟨rows, ids, d, [a, b, c]⟩)
    (hlen : ids.length = rows.length)
    (hmx : 0 < mx) (hwin : mx ≤ rows.length)
    (hlast : ids.getLast? = some li) :
    getitem ⟨samples, mn, mx, mode, some fm, some fs,
        some [m0, m1, m2, m3], some [s0, s1, s2, s3]⟩ idx draw =
      some ⟨(rows.drop (rows.length - mx)).map (fun row => normVec fm fs row),
            mx,
            [(a - m0) / s0, (b - m1) / s1, (c - m2) / s2],
            (((d - li : ℤ) : ℚ) - m3) / s3⟩ := by
  rw [getitem_eval_master samples mn mx mode fm fs m0 m1 m2 m3 s0 s1 s2 s3
      idx draw rows ids d li a b c hmode hidx hlen (by omega) hmx hlast,
    pyBound_sub_of_le _ _ hwin, Nat.sub_sub_self hwin]

/-- C2 witness: `frame_ids = [0..19]`, `drop_frame = 25`,
`label_xyz = [100, 50, 0]`, `max_len = 10`: the window is rows `10..19`,
and with `label_mean[3] = 2`, `label_std[3] = 4` the returned
`label_time_norm` is `(6 - 2) / 4 = 1`. -/
theorem c2_eval_window_witness :
    getitem ⟨[⟨[[0], [1], [2], [3], [4], [5], [6], [7], [8], [9], [10], [11],
                [12], [13], [14], [15], [16], [17], [18], [19]],
               [0, 1, 2, 3, 4, 5, 6, 7, 8, 9, 10, 11, 12, 13, 14, 15, 16, 17,
                18, 19], 25, [100, 50, 0]⟩],
        10, 10, "test", some [0], some [1], some [0, 0, 0, 2],
        some [1, 1, 1, 4]⟩ 0 0 =
      some ⟨([[(10 : ℚ)], [11], [12], [13], [14], [15], [16], [17], [18],
              [19]]).map (fun row => normVec [0] [1] row),
            10, [100, 50, 0], 1⟩ := by
  have h := c2_eval_window
    [⟨[[0], [1], [2], [3], [4], [5], [6], [7], [8], [9], [10], [11],
       [12], [13], [14], [15], [16], [17], [18], [19]],
      [0, 1, 2, 3, 4, 5, 6, 7, 8, 9, 10, 11, 12, 13, 14, 15, 16, 17, 18, 19],
      25, [100, 50, 0]⟩]
    10 10 "test" [0] [1] 0 0 0 2 1 1 1 4 0 0
    [[0], [1], [2], [3], [4], [5], [6], [7], [8], [9], [10], [11],
     [12], [13], [14], [15], [16], [17], [18], [19]]
    [0, 1, 2, 3, 4, 5, 6, 7, 8, 9, 10, 11, 12, 13, 14, 15, 16, 17, 18, 19]
    25 19 100 50 0
    (by decide) rfl (by decide) (by decide) (by decide) (by decide)
  rw [h]
  norm_num

/-- C9 (amended): in evaluation mode with `total_len < max_len`,
`__getitem__` never fails; Python's negative slice start yields the window
`frames[2 * total_len - max_len : total_len]` (truncated subtraction), so
the access degrades to the full trajectory exactly when
`max_len ≥ 2 * total_len`, and returns a shorter partial window of
`max_len - total_len` trailing frames when
`total_len < max_len < 2 * total_len`. -/
theorem c9_eval_short_trajectory
    (samples : List Sample) (mn mx : ℕ) (mode : String)
    (fm fs : List ℚ) (m0 m1 m2 m3 s0 s1 s2 s3 : ℚ)
    (idx draw : ℕ) (rows : List (List ℚ)) (ids : List ℤ) (d li : ℤ)
    (a b c : ℚ)
    (hmode : mode ≠ "train")
    (hidx : samples[idx]? = some ⟨rows, ids, d, [a, b, c]⟩)
    (hlen : ids.length = rows.length)
    (hpos : 0 < rows.length) (hshort : rows.length < mx)
    (hlast : ids.getLast? = some li) :
    getitem ⟨samples, mn, mx, mode, some fm, some fs,
        some [m0, m1, m2, m3], some [s0, s1, s2, s3]⟩ idx draw =
      some ⟨(rows.drop (2 * rows.length - mx)).map
              (fun row => normVec fm fs row),
            rows.length - (2 * rows.length - mx),
            [(a - m0) / s0, (b - m1) / s1, (c - m2) / s2],
            (((d - li : ℤ) : ℚ) - m3) / s3⟩ ∧
    (2 * rows.length ≤ mx →
      rows.drop (2 * rows.length - mx) = rows ∧
      rows.length - (2 * rows.length - mx) = rows.length) ∧
    (mx < 2 * rows.length →
      rows.length - (2 * rows.length - mx) = mx - rows.length) := by
  refine ⟨?_, fun h => ?_, fun h => by omega⟩
  · rw [getitem_eval_master samples mn mx mode fm fs m0 m1 m2 m3 s0 s1 s2 s3
        idx draw rows ids d li a b c hmode hidx hlen hpos (by omega) hlast,
      pyBound_sub_of_lt _ _ hshort]
  · have h0 : 2 * rows.length - mx = 0 := by omega
    rw [h0]
    exact ⟨rfl, by omega⟩

/-- C9 counterexample: a trajectory of `total_len = 5` accessed in
evaluation mode with `max_len = 8` neither fails nor degrades to the full
trajectory: the returned window has length `3` (`= max_len - total_len`),
a shorter partial window — the third behavior the claim excludes. -/
theorem c9_counterexample :
    (getitem ⟨[⟨[[0], [1], [2], [3], [4]], [0, 1, 2, 3, 4], 10, [1, 2, 3]⟩],
        1, 8, "test", some [0], some [1], some [0, 0, 0, 0],
        some [1, 1, 1, 1]⟩ 0 0).map Item.length = some 3 ∧
    ([[(0 : ℚ)], [1], [2], [3], [4]] : List (List ℚ)).length = 5 ∧
    (3 : ℕ) ≠ 5 := by
  refine ⟨?_, rfl, by decide⟩
  rfl

/-- C9 witness: `total_len = 5`, `max_len = 8`: the access succeeds and
returns the trailing `3 = max_len - total_len` frames. -/
theorem c9_eval_short_trajectory_witness :
    getitem ⟨[⟨[[0], [1], [2], [3], [4]], [0, 1, 2, 3, 4], 10, [1, 2, 3]⟩],
        1, 8, "test", some [0], some [1], some [0, 0, 0, 0],
        some [1, 1, 1, 1]⟩ 0 0 =
      some ⟨([[(2 : ℚ)], [3], [4]]).map (fun row => normVec [0] [1] row),
            3, [1, 2, 3], 6⟩ := by
  have h := c9_eval_short_trajectory
    [⟨[[0], [1], [2], [3], [4]], [0, 1, 2, 3, 4], 10, [1, 2, 3]⟩]
    1 8 "test" [0] [1] 0 0 0 0 1 1 1 1 0 0
    [[0], [1], [2], [3], [4]] [0, 1, 2, 3, 4] 10 4 1 2 3
    (by decide) rfl (by decide) (by decide) (by decide) (by decide)
  rw [h.1]
  norm_num

/-- C4: in training mode, with `seq_len` drawn from `[min_len, max_len]`
and clamped to `total_len`, `__getitem__` uses the end-anchored window
`end = total_len - 1`, `start = end - seq_len + 1`; for every trajectory
with `total_len ≥ 1` the access never throws, the window satisfies
`0 ≤ start ≤ end = total_len - 1`, and when `total_len ≤ min_len` the
returned window is the entire trajectory. -/
theorem c4_train_window
    (samples : List Sample) (mn mx : ℕ)
    (fm fs : List ℚ) (m0 m1 m2 m3 s0 s1 s2 s3 : ℚ)
    (idx draw : ℕ) (rows : List (List ℚ)) (ids : List ℤ) (d li : ℤ)
    (a b c : ℚ)
    (hidx : samples[idx]? = some ⟨rows, ids, d, [a, b, c]⟩)
    (hlen : ids.length = rows.length)
    (hpos : 0 < rows.length) (hmn : 0 < mn)
    (hd1 : mn ≤ draw) (_hd2 : draw ≤ mx)
    (hlast : ids.getLast? = some li) :
    getitem ⟨samples, mn, mx, "train", some fm, some fs,
        some [m0, m1, m2, m3], some [s0, s1, s2, s3]⟩ idx draw =
      some ⟨(rows.drop (rows.length - min draw rows.length)).map
              (fun row => normVec fm fs row),
            min draw rows.length,
            [(a - m0) / s0, (b - m1) / s1, (c - m2) / s2],
            (((d - li : ℤ) : ℚ) - m3) / s3⟩ ∧
    1 ≤ min draw rows.length ∧
    rows.length - min draw rows.length + min draw rows.length = rows.length ∧
    rows.length - min draw rows.length ≤ rows.length - 1 ∧
    (rows.length ≤ mn →
      rows.drop (rows.length - min draw rows.length) = rows ∧
      min draw rows.length = rows.length) := by
  have hdrawpos : 0 < draw := lt_of_lt_of_le hmn hd1
  have hminpos : 0 < min draw rows.length := by
    rw [Nat.lt_min] ; exact ⟨hdrawpos, hpos⟩
  refine ⟨getitem_train_master samples mn mx fm fs m0 m1 m2 m3 s0 s1 s2 s3
      idx draw rows ids d li a b c hidx hlen hpos hdrawpos hlast,
    hminpos, by omega, by omega, fun hsmall => ?_⟩
  have hmin : min draw rows.length = rows.length := by omega
  rw [hmin, Nat.sub_self]
  exact ⟨rfl, rfl⟩

/-- C4 witness: a trajectory of length exactly `min_len = 3` with
`draw = 4 ∈ [3, 6]`: the clamped window is the entire trajectory and the
access succeeds. -/
theorem c4_train_window_witness :
    getitem ⟨[⟨[[0], [1], [2]], [0, 1, 2], 7, [1, 2, 3]⟩],
        3, 6, "train", some [0], some [1], some [0, 0, 0, 0],
        some [1, 1, 1, 1]⟩ 0 4 =
      some ⟨([[(0 : ℚ)], [1], [2]]).map (fun row => normVec [0] [1] row),
            3, [1, 2, 3], 5⟩ := by
  have h := c4_train_window
    [⟨[[0], [1], [2]], [0, 1, 2], 7, [1, 2, 3]⟩]
    3 6 [0] [1] 0 0 0 0 1 1 1 1 0 4
    [[0], [1], [2]] [0, 1, 2] 7 2 1 2 3
    rfl (by decide) (by decide) (by decide) (by decide) (by decide)
    (by decide)
  rw [h.1]
  norm_num

/-- C1: evaluation-mode construction with the four statistics arrays of a
prior training-mode construction stores exactly those arrays — it never
recomputes them from the evaluation samples (which are universally
quantified here) — and `get_norm_stats` on the evaluation dataset returns
the training-time statistics.  `getitem` is a pure function in this
embedding (the source `__getitem__` writes no attribute), so no number of
accesses on either dataset can change the statistics. -/
theorem c1_stats_frozen
    (sq : ℚ → ℚ) (sh sh2 : List Sample → List Sample)
    (tr ev : List Sample) (mn mx mn2 mx2 R R2 : ℕ) (mode : String)
    (ds1 : BadmintonDataset)
    (_h1 : badmintonInit sq sh tr mn mx "train" R none none none none =
      some ds1)
    (hev : ev ≠ []) (hmode : mode ≠ "train") :
    ∃ ds2, badmintonInit sq sh2 ev mn2 mx2 mode R2
        ds1.feature_mean ds1.feature_std ds1.label_mean ds1.label_std =
          some ds2 ∧
      get_norm_stats ds2 = get_norm_stats ds1 := by
  unfold badmintonInit
  rw [if_neg (by simpa using hev), if_neg hmode]
  exact ⟨_, rfl, rfl⟩

/-- C1 witness: a concrete one-sample training pool; the evaluation
dataset constructed from its `get_norm_stats` output reports the same
statistics. -/
theorem c1_stats_frozen_witness :
    badmintonInit (fun _ => 0) (fun l => l) [⟨[[1]], [0], 3, [1, 2, 3]⟩]
        10 50 "train" 2 none none none none =
      some ⟨expandCore [⟨[[1]], [0], 3, [1, 2, 3]⟩] 2, 10, 50, "train",
        some [1], some [eps], some [1, 2, 3, 3], some [eps, eps, eps, eps]⟩ ∧
    ∃ ds2, badmintonInit (fun _ => 0) (fun l => l) [⟨[[2]], [1], 4, [0, 0, 0]⟩]
        3 7 "test" 9
        (some [1]) (some [eps]) (some [1, 2, 3, 3]) (some [eps, eps, eps, eps]) =
          some ds2 ∧
      get_norm_stats ds2 =
        get_norm_stats ⟨expandCore [⟨[[1]], [0], 3, [1, 2, 3]⟩] 2, 10, 50,
          "train", some [1], some [eps], some [1, 2, 3, 3],
          some [eps, eps, eps, eps]⟩ := by
  have h1 : badmintonInit (fun _ => (0 : ℚ)) (fun l => l)
      [⟨[[1]], [0], 3, [1, 2, 3]⟩] 10 50 "train" 2 none none none none =
      some ⟨expandCore [⟨[[1]], [0], 3, [1, 2, 3]⟩] 2, 10, 50, "train",
        some [1], some [eps], some [1, 2, 3, 3], some [eps, eps, eps, eps]⟩ := by
    norm_num [badmintonInit, resampling_v2, colMeans, colVars, qmean, qvar,
      column, allFrames, allLabels, labelVec, featWidth, labWidth,
      List.range_succ]
  exact ⟨h1, c1_stats_frozen (fun _ => 0) (fun l => l) (fun l => l)
    [⟨[[1]], [0], 3, [1, 2, 3]⟩] [⟨[[2]], [1], 4, [0, 0, 0]⟩]
    10 50 3 7 2 9 "test" _ h1 (List.cons_ne_nil _ _) (by decide)⟩

/-- C3 counterexample: evaluation-mode construction with all four
statistics arrays missing (`None`) succeeds — it does not fail fast at
construction time, contradicting the claim. -/
theorem c3_counterexample :
    (badmintonInit (fun q => q) (fun l => l) [⟨[[1]], [0], 3, [1, 2, 3]⟩]
      10 50 "test" 5 none none none none).isSome = true := rfl

/-- C3 (amended): evaluation-mode construction with any of the four
statistics arrays missing succeeds, storing the missing (`None`)
statistics unchanged — the `InvalidArgument` failure the spec requires
does not happen at construction time.  The dataset never falls back to
statistics computed from the evaluation samples (the stored fields are
exactly the passed ones); instead, every subsequent `__getitem__` access
fails. -/
theorem c3_eval_missing_stats
    (sq : ℚ → ℚ) (sh : List Sample → List Sample) (ev : List Sample)
    (mn mx R : ℕ) (mode : String)
    (fm fs lm ls : Option (List ℚ))
    (hev : ev ≠ []) (hmode : mode ≠ "train")
    (hnone : fm = none ∨ fs = none ∨ lm = none ∨ ls = none) :
    ∃ ds, badmintonInit sq sh ev mn mx mode R fm fs lm ls = some ds ∧
      get_norm_stats ds = (fm, fs, lm, ls) ∧
      ∀ i d, getitem ds i d = none := by
  refine ⟨⟨ev, mn, mx, mode, fm, fs, lm, ls⟩, ?_, rfl, fun i d =>
    getitem_none_of_missing ev mn mx mode fm fs lm ls i d hmode hnone⟩
  unfold badmintonInit
  rw [if_neg (by simpa using hev), if_neg hmode]

/-- C3 witness: missing `feature_mean` and `feature_std` on a concrete
evaluation construction: the dataset is built, stores the `None`s, and
every access fails. -/
theorem c3_eval_missing_stats_witness :
    ∃ ds, badmintonInit (fun q => q) (fun l => l)
        [⟨[[1]], [0], 3, [1, 2, 3]⟩] 10 50 "test" 5
        none none (some [0, 0, 0, 0]) (some [1, 1, 1, 1]) = some ds ∧
      get_norm_stats ds =
        (none, none, some [0, 0, 0, 0], some [1, 1, 1, 1]) ∧
      ∀ i d, getitem ds i d = none :=
  c3_eval_missing_stats (fun q => q) (fun l => l)
    [⟨[[1]], [0], 3, [1, 2, 3]⟩] 10 50 5 "test"
    none none (some [0, 0, 0, 0]) (some [1, 1, 1, 1])
    (List.cons_ne_nil _ _) (by decide) (Or.inl rfl)

/-- C8: for every non-empty training pool (including pools with constant
feature or label dimensions, whose raw standard deviation is zero), every
element of the stored `feature_std` and `label_std` is at least `1e-6` and
strictly positive, so the elementwise divisions of `__getitem__` never
divide by zero.  `sq` is the floating square root of `numpy.std`, assumed
nonnegative on nonnegative inputs. -/
theorem c8_std_floor
    (sq : ℚ → ℚ) (sh : List Sample → List Sample)
    (samples : List Sample) (mn mx R : ℕ)
    (fm0 fs0 lm0 ls0 : Option (List ℚ)) (ds : BadmintonDataset)
    (hsq : ∀ q, 0 ≤ q → 0 ≤ sq q)
    (h1 : badmintonInit sq sh samples mn mx "train" R fm0 fs0 lm0 ls0 =
      some ds) :
    ∃ fsl lsl, ds.feature_std = some fsl ∧ ds.label_std = some lsl ∧
      (∀ x ∈ fsl, eps ≤ x ∧ 0 < x) ∧ (∀ x ∈ lsl, eps ≤ x ∧ 0 < x) := by
  unfold badmintonInit at h1
  by_cases h0 : samples.length = 0
  · rw [if_pos h0] at h1
    exact absurd h1 (by simp)
  · rw [if_neg h0, if_pos rfl] at h1
    injection h1 with h1
    subst h1
    refine ⟨_, _, rfl, rfl, ?_, ?_⟩ <;>
    · intro x hx
      rcases List.mem_map.mp hx with ⟨v, hv, rfl⟩
      have hv0 : 0 ≤ v := by
        simp only [colVars] at hv
        rcases List.mem_map.mp hv with ⟨j, _, rfl⟩
        exact qvar_nonneg _
      have hs := hsq v hv0
      have he : (0 : ℚ) < eps := by norm_num [eps]
      constructor <;> linarith

/-- C8 witness: a one-sample training pool whose single feature dimension
and all four label dimensions are constant (raw standard deviation zero),
with the square root modelled as the constant-zero function: the stored
standard deviations are exactly the `1e-6` floor. -/
theorem c8_std_floor_witness :
    ∃ fsl lsl,
      (⟨expandCore [⟨[[1]], [0], 3, [1, 2, 3]⟩] 2, 10, 50, "train",
        some [1], some [eps], some [1, 2, 3, 3], some [eps, eps, eps, eps]⟩ :
          BadmintonDataset).feature_std = some fsl ∧
      (⟨expandCore [⟨[[1]], [0], 3, [1, 2, 3]⟩] 2, 10, 50, "train",
        some [1], some [eps], some [1, 2, 3, 3], some [eps, eps, eps, eps]⟩ :
          BadmintonDataset).label_std = some lsl ∧
      (∀ x ∈ fsl, eps ≤ x ∧ 0 < x) ∧ (∀ x ∈ lsl, eps ≤ x ∧ 0 < x) :=
  c8_std_floor (fun _ => 0) (fun l => l) [⟨[[1]], [0], 3, [1, 2, 3]⟩]
    10 50 2 none none none none _ (fun _ h => le_refl 0)
    (by norm_num [badmintonInit, resampling_v2, colMeans, colVars, qmean,
      qvar, column, allFrames, allLabels, labelVec, featWidth, labWidth,
      List.range_succ])

/-- C6: the statistics frozen by training-mode construction (computed by
the source from the pre-expansion pool) are exactly the statistics of the
expanded pool `ds.samples = resampling_v2 …`: uniform `R`-fold replication
followed by shuffling leaves every per-dimension mean and standard
deviation unchanged. -/
theorem c6_stats_replication_invariant
    (sq : ℚ → ℚ) (sh : List Sample → List Sample)
    (samples : List Sample) (mn mx R : ℕ)
    (fm0 fs0 lm0 ls0 : Option (List ℚ)) (ds : BadmintonDataset)
    (hR : 0 < R) (hsh : ∀ l, (sh l).Perm l)
    (h1 : badmintonInit sq sh samples mn mx "train" R fm0 fs0 lm0 ls0 =
      some ds) :
    ds.samples = resampling_v2 sh samples R ∧
    ds.feature_mean =
      some (colMeans (featWidth samples) (allFrames ds.samples)) ∧
    ds.feature_std =
      some ((colVars (featWidth samples) (allFrames ds.samples)).map
        (fun v => sq v + eps)) ∧
    ds.label_mean =
      some (colMeans (labWidth samples) (allLabels ds.samples)) ∧
    ds.label_std =
      some ((colVars (labWidth samples) (allLabels ds.samples)).map
        (fun v => sq v + eps)) := by
  unfold badmintonInit at h1
  by_cases h0 : samples.length = 0
  · rw [if_pos h0] at h1
    exact absurd h1 (by simp)
  · rw [if_neg h0, if_pos rfl] at h1
    injection h1 with h1
    subst h1
    obtain ⟨hFm, hFv, -, -⟩ := stats_expand_perm R hR samples
      (resampling_v2 sh samples R) (hsh _) (featWidth samples)
    obtain ⟨-, -, hLm, hLv⟩ := stats_expand_perm R hR samples
      (resampling_v2 sh samples R) (hsh _) (labWidth samples)
    exact ⟨rfl, by rw [hFm], by rw [hFv], by rw [hLm], by rw [hLv]⟩

/-- C6 witness: a one-sample pool with two frames, `R = 2`, identity
shuffle: the frozen statistics coincide with those of the expanded pool. -/
theorem c6_stats_replication_invariant_witness :
    ∃ ds, badmintonInit (fun _ => 0) (fun l => l)
        [⟨[[1], [3]], [0, 1], 5, [1, 2, 3]⟩] 10 50 "train" 2
        none none none none = some ds ∧
      ds.samples = resampling_v2 (fun l => l)
        [⟨[[1], [3]], [0, 1], 5, [1, 2, 3]⟩] 2 ∧
      ds.feature_mean = some (colMeans
        (featWidth [⟨[[1], [3]], [0, 1], 5, [1, 2, 3]⟩])
        (allFrames ds.samples)) := by
  have h1 : badmintonInit (fun _ => (0 : ℚ)) (fun l => l)
      [⟨[[1], [3]], [0, 1], 5, [1, 2, 3]⟩] 10 50 "train" 2
      none none none none =
      some ⟨expandCore [⟨[[1], [3]], [0, 1], 5, [1, 2, 3]⟩] 2, 10, 50,
        "train", some [2], some [eps], some [1, 2, 3, 4],
        some [eps, eps, eps, eps]⟩ := by
    norm_num [badmintonInit, resampling_v2, colMeans, colVars, qmean, qvar,
      column, allFrames, allLabels, labelVec, featWidth, labWidth,
      List.range_succ]
  obtain ⟨heq, hfm, -, -, -⟩ := c6_stats_replication_invariant
    (fun _ => 0) (fun l => l) [⟨[[1], [3]], [0, 1], 5, [1, 2, 3]⟩]
    10 50 2 none none none none _ (by decide) (fun l => List.Perm.refl l) h1
  exact ⟨_, h1, heq, hfm⟩

/-- C7: `resampling_v2` returns exactly `R × N` entries; as a multiset,
every input sample appears `R` times as often as in the input (so each of
the `N` entries contributes exactly `R` replicas); every output entry is a
full, unsliced input sample, every input sample occurs in the output, and
the output is a permutation (shuffle) of the plain `R`-fold replication. -/
theorem c7_resampling_v2_multiset
    (sh : List Sample → List Sample) (samples : List Sample) (R : ℕ)
    (hR : 0 < R) (hsh : ∀ l, (sh l).Perm l) :
    (resampling_v2 sh samples R).length = R * samples.length ∧
    (∀ s : Sample,
      (resampling_v2 sh samples R).count s = R * samples.count s) ∧
    (∀ e ∈ resampling_v2 sh samples R, e ∈ samples) ∧
    (∀ s ∈ samples, s ∈ resampling_v2 sh samples R) ∧
    (resampling_v2 sh samples R).Perm (expandCore samples R) := by
  have hp : (resampling_v2 sh samples R).Perm (expandCore samples R) := hsh _
  refine ⟨?_, ?_, ?_, ?_, hp⟩
  · rw [hp.length_eq, length_expandCore]
  · intro s
    rw [hp.count_eq, count_expandCore]
  · intro e he
    exact mem_of_mem_expandCore samples R e (hp.mem_iff.mp he)
  · intro s hs
    exact hp.mem_iff.mpr (mem_expandCore_of_mem samples R hR s hs)

/-- C7 witness: `R = 4` on a two-sample pool with identity shuffle:
8 entries, each input sample counted 4 times and present. -/
theorem c7_resampling_v2_multiset_witness :
    (resampling_v2 (fun l => l)
        [⟨[[1]], [0], 3, [1, 2, 3]⟩, ⟨[[2]], [1], 4, [4, 5, 6]⟩] 4).length =
      4 * 2 ∧
    (∀ s : Sample, (resampling_v2 (fun l => l)
        [⟨[[1]], [0], 3, [1, 2, 3]⟩, ⟨[[2]], [1], 4, [4, 5, 6]⟩] 4).count s =
      4 * ([⟨[[1]], [0], 3, [1, 2, 3]⟩,
            ⟨[[2]], [1], 4, [4, 5, 6]⟩] : List Sample).count s) ∧
    (∀ e ∈ resampling_v2 (fun l => l)
        [⟨[[1]], [0], 3, [1, 2, 3]⟩, ⟨[[2]], [1], 4, [4, 5, 6]⟩] 4,
      e ∈ ([⟨[[1]], [0], 3, [1, 2, 3]⟩,
            ⟨[[2]], [1], 4, [4, 5, 6]⟩] : List Sample)) ∧
    (∀ s ∈ ([⟨[[1]], [0], 3, [1, 2, 3]⟩,
             ⟨[[2]], [1], 4, [4, 5, 6]⟩] : List Sample),
      s ∈ resampling_v2 (fun l => l)
        [⟨[[1]], [0], 3, [1, 2, 3]⟩, ⟨[[2]], [1], 4, [4, 5, 6]⟩] 4) ∧
    (resampling_v2 (fun l => l)
        [⟨[[1]], [0], 3, [1, 2, 3]⟩, ⟨[[2]], [1], 4, [4, 5, 6]⟩] 4).Perm
      (expandCore [⟨[[1]], [0], 3, [1, 2, 3]⟩, ⟨[[2]], [1], 4, [4, 5, 6]⟩] 4) :=
  c7_resampling_v2_multiset (fun l => l)
    [⟨[[1]], [0], 3, [1, 2, 3]⟩, ⟨[[2]], [1], 4, [4, 5, 6]⟩] 4
    (by decide) (fun l => List.Perm.refl l)

/-- C5: for every non-empty batch with consistent lengths (`length_i ≥ 1`)
and common feature width `F`, `collate_fn_dynamic` returns the stacked
left-padded sequences (`maxL - length_i` all-zero frames, then the
sequence unchanged), the boolean masks that are `false` exactly on the
padded prefix and `true` on the trailing `length_i` positions, and the
lengths / xyz labels / time labels stacked in batch order; every stacked
row has shape `(maxL, F)`, and an example of maximal length has an
all-true mask. -/
theorem c5_collate_left_padding (it0 : Item) (rest : List Item) (F maxL : ℕ)
    (hmax : maxL = ((it0 :: rest).map (fun it => it.length)).foldl Nat.max 0)
    (hlen : ∀ it ∈ it0 :: rest, it.seq.length = it.length)
    (hpos : ∀ it ∈ it0 :: rest, 0 < it.length)
    (hw : ∀ it ∈ it0 :: rest, ∀ r ∈ it.seq, r.length = F) :
    (∀ it ∈ it0 :: rest, it.length ≤ maxL) ∧
    collate_fn_dynamic (it0 :: rest) =
      some ⟨(it0 :: rest).map (fun it =>
          List.replicate (maxL - it.length) (List.replicate F (0 : ℚ)) ++
            it.seq),
        (it0 :: rest).map (fun it => it.length),
        (it0 :: rest).map (fun it =>
          List.replicate (maxL - it.length) false ++
            List.replicate it.length true),
        (it0 :: rest).map (fun it => it.label_xyz_norm),
        (it0 :: rest).map (fun it => it.label_time_norm)⟩ ∧
    (∀ pr ∈ (it0 :: rest).map (fun it =>
        List.replicate (maxL - it.length) (List.replicate F (0 : ℚ)) ++
          it.seq),
      pr.length = maxL ∧ ∀ r ∈ pr, r.length = F) ∧
    (∀ it ∈ it0 :: rest, it.length = maxL →
      List.replicate (maxL - it.length) false ++
        List.replicate it.length true = List.replicate maxL true) := by
  have hle : ∀ it ∈ it0 :: rest, it.length ≤ maxL := by
    intro it hit
    rw [hmax]
    exact le_foldl_max _ _ _ (List.mem_map_of_mem _ hit)
  have hshape : ∀ pr ∈ (it0 :: rest).map (fun it =>
      List.replicate (maxL - it.length) (List.replicate F (0 : ℚ)) ++
        it.seq),
      pr.length = maxL ∧ ∀ r ∈ pr, r.length = F := by
    intro pr hpr
    rcases List.mem_map.mp hpr with ⟨it, hit, rfl⟩
    constructor
    · have h1 := hlen it hit
      have h2 := hle it hit
      simp only [List.length_append, List.length_replicate, h1]
      omega
    · intro r hr
      rcases List.mem_append.mp hr with h | h
      · rw [List.eq_of_mem_replicate h, List.length_replicate]
      · exact hw it hit r h
  have hF : (it0.seq.headD []).length = F := by
    cases hseq : it0.seq with
    | nil =>
      have h1 := hlen it0 (List.mem_cons_self _ _)
      have h2 := hpos it0 (List.mem_cons_self _ _)
      rw [hseq] at h1
      simp at h1
      omega
    | cons r t =>
      simp only [hseq, List.headD_cons]
      exact hw it0 (List.mem_cons_self _ _) r
        (by rw [hseq] ; exact List.mem_cons_self _ _)
  have hguard : ((it0 :: rest).map (fun it =>
      List.replicate (maxL - it.length) (List.replicate F (0 : ℚ)) ++
        it.seq)).all
      (fun sq => sq.length == maxL && sq.all (fun r => r.length == F)) =
      true := by
    rw [List.all_eq_true]
    intro pr hpr
    obtain ⟨h1, h2⟩ := hshape pr hpr
    rw [Bool.and_eq_true, beq_iff_eq, List.all_eq_true]
    exact ⟨h1, fun r hr => beq_iff_eq.mpr (h2 r hr)⟩
  have hmask : (it0 :: rest).map (fun it =>
      List.replicate (maxL - it.length) false ++
        List.replicate (maxL - (maxL - it.length)) true) =
      (it0 :: rest).map (fun it =>
      List.replicate (maxL - it.length) false ++
        List.replicate it.length true) :=
    List.map_congr_left (fun it hit => by rw [Nat.sub_sub_self (hle it hit)])
  refine ⟨hle, ?_, hshape, fun it _ hit => by simp [hit]⟩
  simp only [collate_fn_dynamic, hF, ← hmax, hmask, hguard, if_true]

/-- C5 witness: batch of lengths `[3, 5, 2]` with feature width `F = 2`:
the output is `(3, 5, 2)`-shaped with left padding, and the mask of the
length-5 example is all `true`. -/
theorem c5_collate_left_padding_witness :
    collate_fn_dynamic
        [⟨[[1, 1], [2, 2], [3, 3]], 3, [1, 2, 3], 4⟩,
         ⟨[[1, 0], [2, 0], [3, 0], [4, 0], [5, 0]], 5, [0, 0, 0], 0⟩,
         ⟨[[7, 7], [8, 8]], 2, [9, 9, 9], 9⟩] =
      some ⟨([⟨[[1, 1], [2, 2], [3, 3]], 3, [1, 2, 3], 4⟩,
              ⟨[[1, 0], [2, 0], [3, 0], [4, 0], [5, 0]], 5, [0, 0, 0], 0⟩,
              ⟨[[7, 7], [8, 8]], 2, [9, 9, 9], 9⟩] : List Item).map (fun it =>
          List.replicate (5 - it.length) (List.replicate 2 (0 : ℚ)) ++
            it.seq),
        [3, 5, 2],
        ([⟨[[1, 1], [2, 2], [3, 3]], 3, [1, 2, 3], 4⟩,
          ⟨[[1, 0], [2, 0], [3, 0], [4, 0], [5, 0]], 5, [0, 0, 0], 0⟩,
          ⟨[[7, 7], [8, 8]], 2, [9, 9, 9], 9⟩] : List Item).map (fun it =>
          List.replicate (5 - it.length) false ++
            List.replicate it.length true),
        [[1, 2, 3], [0, 0, 0], [9, 9, 9]],
        [4, 0, 9]⟩ := by
  have h := c5_collate_left_padding
    ⟨[[1, 1], [2, 2], [3, 3]], 3, [1, 2, 3], 4⟩
    [⟨[[1, 0], [2, 0], [3, 0], [4, 0], [5, 0]], 5, [0, 0, 0], 0⟩,
     ⟨[[7, 7], [8, 8]], 2, [9, 9, 9], 9⟩] 2 5
    (by decide) (by decide) (by decide) (by decide)
  rw [h.2.1]
  norm_num

/-- C10: in the interior-sampling expander `resampling`, every replica
whose drawn `seq_len` exceeds the sample's trajectory length is silently
skipped (never clamped), so the result has at most
`num_subsamples × N` entries and is empty whenever `min_len` exceeds every
trajectory's length; every produced entry is a contiguous slice of exactly
`seq_len` frames ending at the drawn `end_idx ∈ [seq_len - 1,
total_len - 1]`, with `drop_frame` and `label_xyz` copied unchanged.  The
two `randint` draws are the oracle `draws` with the corresponding range
hypotheses. -/
theorem c10_resampling_interior
    (sh : List Sample → List Sample) (draws : ℕ → ℕ → ℕ × ℕ)
    (samples : List Sample) (R mn mx : ℕ)
    (hsh : ∀ l, (sh l).Perm l) (hmn : 0 < mn)
    (hd1 : ∀ i k, mn ≤ (draws i k).1 ∧ (draws i k).1 ≤ mx)
    (hd2 : ∀ i k s, samples[i]? = some s →
      (draws i k).1 ≤ s.frames.length →
      (draws i k).1 - 1 ≤ (draws i k).2 ∧ (draws i k).2 < s.frames.length)
    (hids : ∀ s ∈ samples, s.frame_ids.length = s.frames.length) :
    (resampling sh draws samples R).length ≤ R * samples.length ∧
    (∀ e ∈ resampling sh draws samples R, ∃ s ∈ samples, ∃ sl ed : ℕ,
      mn ≤ sl ∧ sl ≤ mx ∧ sl ≤ s.frames.length ∧
      sl - 1 ≤ ed ∧ ed < s.frames.length ∧
      e.frames = (s.frames.take (ed + 1)).drop (ed + 1 - sl) ∧
      e.frame_ids = (s.frame_ids.take (ed + 1)).drop (ed + 1 - sl) ∧
      e.frames.length = sl ∧
      e.drop_frame = s.drop_frame ∧ e.label_xyz = s.label_xyz) ∧
    ((∀ s ∈ samples, s.frames.length < mn) →
      resampling sh draws samples R = []) := by
  have hp : (resampling sh draws samples R).Perm
      ((samples.enum).flatMap (fun si =>
        (List.range R).filterMap (fun k =>
          resamplingStep si.2 (draws si.1 k).1 (draws si.1 k).2))) := hsh _
  refine ⟨?_, ?_, ?_⟩
  · rw [hp.length_eq]
    have := length_flatMap_le (samples.enum)
      (fun si => (List.range R).filterMap (fun k =>
        resamplingStep si.2 (draws si.1 k).1 (draws si.1 k).2)) R
      (fun si _ => le_trans (List.length_filterMap_le _ _)
        (le_of_eq (List.length_range R)))
    rw [List.enum_length, Nat.mul_comm samples.length R] at this
    exact this
  · intro e he
    rcases List.mem_flatMap.mp (hp.mem_iff.mp he) with ⟨si, hsi, hfm⟩
    rcases List.mem_filterMap.mp hfm with ⟨k, -, hstep⟩
    obtain ⟨i, s⟩ := si
    obtain ⟨hilt, hs⟩ := List.mem_enum hsi
    have hidx : samples[i]? = some s := by
      rw [List.getElem?_eq_getElem hilt, ← hs]
    have hmem : s ∈ samples := by
      rw [hs]
      exact List.getElem_mem hilt
    simp only [resamplingStep] at hstep
    by_cases hgt : (draws i k).1 > s.frames.length
    · rw [if_pos hgt] at hstep
      cases hstep
    · rw [if_neg hgt] at hstep
      have hle : (draws i k).1 ≤ s.frames.length := by omega
      obtain ⟨hed1, hed2⟩ := hd2 i k s hidx hle
      obtain ⟨hm1, hm2⟩ := hd1 i k
      have hsl1 : (draws i k).1 ≤ (draws i k).2 + 1 := by omega
      have hcast1 : ((draws i k).2 : ℤ) + 1 =
          (((draws i k).2 + 1 : ℕ) : ℤ) := by push_cast ; ring
      have hcast2 : ((draws i k).2 : ℤ) - (draws i k).1 + 1 =
          (((draws i k).2 + 1 - (draws i k).1 : ℕ) : ℤ) := by omega
      rw [hcast1, hcast2] at hstep
      have hfr : pySlice s.frames
          (((draws i k).2 + 1 - (draws i k).1 : ℕ) : ℤ)
          (((draws i k).2 + 1 : ℕ) : ℤ) =
          (s.frames.take ((draws i k).2 + 1)).drop
            ((draws i k).2 + 1 - (draws i k).1) :=
        pySlice_coe _ _ _ (by omega) (by omega)
      have hfi : pySlice s.frame_ids
          (((draws i k).2 + 1 - (draws i k).1 : ℕ) : ℤ)
          (((draws i k).2 + 1 : ℕ) : ℤ) =
          (s.frame_ids.take ((draws i k).2 + 1)).drop
            ((draws i k).2 + 1 - (draws i k).1) := by
        have hi := hids s hmem
        exact pySlice_coe _ _ _ (by omega) (by omega)
      rw [hfr, hfi] at hstep
      refine ⟨s, hmem, (draws i k).1, (draws i k).2,
        hm1, hm2, hle, hed1, hed2, ?_, ?_, ?_, ?_, ?_⟩ <;>
        rw [← Option.some_inj.mp hstep]
      simp only [List.length_drop, List.length_take]
      omega
  · intro hall
    have hcore : (samples.enum).flatMap (fun si =>
        (List.range R).filterMap (fun k =>
          resamplingStep si.2 (draws si.1 k).1 (draws si.1 k).2)) = [] := by
      rw [List.flatMap_eq_nil_iff]
      intro si hsi
      rw [List.filterMap_eq_nil_iff]
      intro k _
      obtain ⟨i, s⟩ := si
      obtain ⟨hilt, hs⟩ := List.mem_enum hsi
      have hmem : s ∈ samples := by
        rw [hs]
        exact List.getElem_mem hilt
      have hlt := hall s hmem
      have hm1 := (hd1 i k).1
      simp only [resamplingStep]
      rw [if_pos (by omega)]
    rw [hcore] at hp
    exact hp.eq_nil

/-- C10 witness: one trajectory of length `3`, `min_len = 2`,
`max_len = 4`, `num_subsamples = 2`, constant draws `(seq_len, end_idx) =
(2, 2)`: the bound, the per-entry slice description and the emptiness
implication all hold. -/
theorem c10_resampling_interior_witness :
    (resampling (fun l => l) (fun _ _ => (2, 2))
        [⟨[[1], [2], [3]], [0, 1, 2], 9, [1, 2, 3]⟩] 2).length ≤
      2 * ([⟨[[1], [2], [3]], [0, 1, 2], 9, [1, 2, 3]⟩] : List Sample).length ∧
    (∀ e ∈ resampling (fun l => l) (fun _ _ => (2, 2))
        [⟨[[1], [2], [3]], [0, 1, 2], 9, [1, 2, 3]⟩] 2,
      ∃ s ∈ ([⟨[[1], [2], [3]], [0, 1, 2], 9, [1, 2, 3]⟩] : List Sample),
        ∃ sl ed : ℕ,
      2 ≤ sl ∧ sl ≤ 4 ∧ sl ≤ s.frames.length ∧
      sl - 1 ≤ ed ∧ ed < s.frames.length ∧
      e.frames = (s.frames.take (ed + 1)).drop (ed + 1 - sl) ∧
      e.frame_ids = (s.frame_ids.take (ed + 1)).drop (ed + 1 - sl) ∧
      e.frames.length = sl ∧
      e.drop_frame = s.drop_frame ∧ e.label_xyz = s.label_xyz) ∧
    ((∀ s ∈ ([⟨[[1], [2], [3]], [0, 1, 2], 9, [1, 2, 3]⟩] : List Sample),
        s.frames.length < 2) →
      resampling (fun l => l) (fun _ _ => (2, 2))
        [⟨[[1], [2], [3]], [0, 1, 2], 9, [1, 2, 3]⟩] 2 = []) := by
  refine c10_resampling_interior (fun l => l) (fun _ _ => (2, 2))
    [⟨[[1], [2], [3]], [0, 1, 2], 9, [1, 2, 3]⟩] 2 2 4
    (fun l => List.Perm.refl l) (by norm_num)
    (fun i k => ⟨le_rfl, by norm_num⟩) ?_ (by decide)
  intro i k s h hle
  cases i with
  | zero =>
    simp only [List.getElem?_cons_zero, Option.some_inj] at h
    subst h
    exact ⟨by norm_num, by norm_num⟩
  | succ n =>
    simp at h

end Badminton
